import Mathlib

/-!
Shallow embedding of the dv1580_a2 repository: the fixed-pool allocator of
memory_manager.c and the linked list of linked_list.c. Pool addresses are
byte offsets from mem_pool_start, a user pointer is the byte offset of the
payload, and a NULL pointer is Option.none.
-/

set_option autoImplicit false

namespace DV1580

/-- ALIGNMENT constant of memory_manager.c. -/
def ALIGNMENT : Nat := 8

/-- ALIGN(sz) of memory_manager.c: (sz + 7) with the three low bits cleared,
written for arbitrary precision naturals as subtracting the remainder. -/
def ALIGN (sz : Nat) : Nat :=
  sz + (ALIGNMENT - 1) - (sz + (ALIGNMENT - 1)) % ALIGNMENT

/-- HEADER_SIZE = ALIGN(sizeof(Block)). Under the LP64 layout of the gcc
build in the Makefile, sizeof(struct Block) = 24: size_t size (8 bytes),
int is_free (4 bytes plus 4 padding), struct Block pointer next (8 bytes). -/
def HEADER_SIZE : Nat := ALIGN 24

/-- Block header of memory_manager.c. addr is the byte offset of the header
inside the pool. The next pointer of the C struct is represented by the
position of the block address inside Pool.freeList. -/
structure Block where
  addr : Nat
  size : Nat
  is_free : Bool
deriving DecidableEq

/-- Allocator state: mem_pool_total_size, the physical sequence of blocks in
address order, and free_list_head as the list of free-block addresses in
free-list order. -/
structure Pool where
  totalSize : Nat
  blocks : List Block
  freeList : List Nat
deriving DecidableEq

/-- Dereference a block header address inside the block table. -/
def blockAt (blocks : List Block) (a : Nat) : Option Block :=
  blocks.find? fun c => c.addr == a

/-- Replace the block stored at address a by the given blocks, keeping
physical order. -/
def replaceBlock : List Block → Nat → List Block → List Block
  | [], _, _ => []
  | c :: cs, a, repl => if c.addr = a then repl ++ cs else c :: replaceBlock cs a repl

/-- split_block of memory_manager.c. Returns the updated block table and the
free-list cells that take the place of the cell of curr; the C code splices
them through the prev pointer or free_list_head, which the caller of this
model (allocLoop) does by list recursion. The caller guarantees that
required is at most curr.size, so the size_t subtraction cannot wrap. -/
def split_block (blocks : List Block) (curr : Block) (required : Nat) :
    List Block × List Nat :=
  let leftover := curr.size - required
  if HEADER_SIZE + ALIGNMENT ≤ leftover then
    (replaceBlock blocks curr.addr
      [Block.mk curr.addr required false,
       Block.mk (curr.addr + required) leftover true],
     [curr.addr + required])
  else
    (replaceBlock blocks curr.addr [Block.mk curr.addr curr.size false], [])

/-- First-fit scan of mem_alloc over the free list. Returns the payload
pointer, the updated block table and the updated free list. A free-list
address that resolves to no header would be a wild pointer in the C code;
the pool invariant rules that out, and the model reports failure there. -/
def allocLoop (blocks : List Block) (required : Nat) :
    List Nat → Option (Nat × List Block × List Nat)
  | [] => none
  | a :: rest =>
    match blockAt blocks a with
    | none => none
    | some curr =>
      if curr.is_free = true ∧ required ≤ curr.size then
        let r := split_block blocks curr required
        some (curr.addr + HEADER_SIZE, r.1, r.2 ++ rest)
      else
        match allocLoop blocks required rest with
        | none => none
        | some (u, bs, fl) => some (u, bs, a :: fl)

/-- mem_init of memory_manager.c: one free block spanning the aligned pool.
The model takes the host malloc to succeed; on failure the C code leaves
the pool uninitialized. -/
def mem_init (size : Nat) : Pool :=
  let sz := if size = 0 then 1 else size
  let total := ALIGN sz
  { totalSize := total
    blocks := [Block.mk 0 total true]
    freeList := [0] }

/-- mem_alloc of memory_manager.c (first-fit). -/
def mem_alloc (p : Pool) (size : Nat) : Option Nat × Pool :=
  let sz := if size = 0 then 1 else size
  let aligned := ALIGN sz
  let required := ALIGN (aligned + HEADER_SIZE)
  match allocLoop p.blocks required p.freeList with
  | none => (none, p)
  | some (ptr, bs, fl) => (some ptr, { totalSize := p.totalSize, blocks := bs, freeList := fl })

/-- Forward walk of rebuild_free_list_and_coalesce: pf is the prev_free
block still growing; a free successor that is address-adjacent is merged
into it. The corruption abort of the C walk (zero block size, or a block
extent crossing the pool end) cannot fire on a contiguous block table with
positive sizes, which the pool invariant guarantees, so it is not
modelled. -/
def coalesceInto (pf : Block) : List Block → List Block
  | [] => [pf]
  | b :: bs =>
    if pf.is_free = true ∧ b.is_free = true ∧ pf.addr + pf.size = b.addr then
      coalesceInto (Block.mk pf.addr (pf.size + b.size) true) bs
    else
      pf :: coalesceInto b bs

/-- Physical-order pass of rebuild_free_list_and_coalesce over the block
table. -/
def coalesceBlocks : List Block → List Block
  | [] => []
  | b :: bs => coalesceInto b bs

/-- Addresses of the free blocks in physical order. The C walk links exactly
these blocks into the rebuilt free list, in this order. -/
def freeAddrs (l : List Block) : List Nat :=
  (l.filter fun b => b.is_free).map fun b => b.addr

/-- rebuild_free_list_and_coalesce of memory_manager.c. -/
def rebuild_free_list_and_coalesce (p : Pool) : Pool :=
  let bs := coalesceBlocks p.blocks
  { totalSize := p.totalSize, blocks := bs, freeList := freeAddrs bs }

/-- Header store performed by mem_free: set is_free to 1 in the header at
address a. -/
def markFree (l : List Block) (a : Nat) : List Block :=
  l.map fun c => if c.addr = a then Block.mk c.addr c.size true else c

/-- Diagnostics the C code writes to stderr. -/
inductive Diag where
  | invalidPointer
  | doubleFree
  | resizeFreed
deriving DecidableEq

/-- mem_free of memory_manager.c, over payload offsets. A payload offset
below HEADER_SIZE would make the C header read fall before the pool start
(the claims only exercise in-range payload pointers); a payload offset
inside the pool whose header address matches no block is unreachable under
the pool invariant, and the model leaves the pool unchanged there. -/
def mem_free (p : Pool) (ptr : Option Nat) : Pool × Option Diag :=
  match ptr with
  | none => (p, none)
  | some u =>
    if p.totalSize ≤ u then (p, some Diag.invalidPointer)
    else
      match blockAt p.blocks (u - HEADER_SIZE) with
      | none => (p, none)
      | some hdr =>
        if hdr.is_free = true then (p, some Diag.doubleFree)
        else
          (rebuild_free_list_and_coalesce
            { totalSize := p.totalSize
              blocks := markFree p.blocks (u - HEADER_SIZE)
              freeList := p.freeList }, none)

/-- Byte contents of the pool, as a function from offsets to byte values.
Block headers are modelled by the structured block table, not by mem. -/
def memcpyF (mem : Nat → Nat) (dst src len : Nat) : Nat → Nat :=
  fun x => if dst ≤ x ∧ x < dst + len then mem (src + (x - dst)) else mem x

/-- Result of mem_resize: returned pointer, pool state, byte contents, and
the diagnostic, if any. -/
structure ResizeResult where
  ptr : Option Nat
  pool : Pool
  mem : Nat → Nat
  diag : Option Diag

/-- mem_resize of memory_manager.c. The header read for a pointer that does
not address a live payload is unspecified in C; the model leaves the pool
unchanged there, and the claims only exercise block payload pointers. -/
def mem_resize (p : Pool) (mem : Nat → Nat) (block : Option Nat) (size : Nat) :
    ResizeResult :=
  match block with
  | none =>
    let r := mem_alloc p size
    ResizeResult.mk r.1 r.2 mem none
  | some u =>
    if size = 0 then
      let r := mem_free p (some u)
      ResizeResult.mk none r.1 mem r.2
    else
      match blockAt p.blocks (u - HEADER_SIZE) with
      | none => ResizeResult.mk none p mem none
      | some old =>
        if old.is_free = true then ResizeResult.mk none p mem (some Diag.resizeFreed)
        else
          let old_total := old.size
          let old_user := if HEADER_SIZE ≤ old_total then old_total - HEADER_SIZE else 0
          let new_required := ALIGN size + HEADER_SIZE
          if new_required ≤ old_total then ResizeResult.mk (some u) p mem none
          else
            match mem_alloc p size with
            | (none, p1) => ResizeResult.mk none p1 mem none
            | (some nb, p1) =>
              let len := if old_user < size then old_user else size
              let mem2 := memcpyF mem nb u len
              let r := mem_free p1 (some u)
              ResizeResult.mk (some nb) r.1 mem2 r.2

/-- mem_deinit of memory_manager.c. -/
def mem_deinit (_p : Pool) : Pool :=
  { totalSize := 0, blocks := [], freeList := [] }

/-- Sum of the sizes of a list of blocks. -/
def sumSizes (l : List Block) : Nat := (l.map fun b => b.size).sum

/-- Total bytes sitting in free blocks. -/
def totalFree (p : Pool) : Nat := sumSizes (p.blocks.filter fun b => b.is_free)

/-- Total bytes sitting in used blocks. -/
def totalUsed (p : Pool) : Nat := sumSizes (p.blocks.filter fun b => !b.is_free)

/-- Total bytes mem_alloc carves out of a free block for a request of n
bytes: ALIGN(ALIGN(n) + HEADER_SIZE), with n = 0 treated as 1. -/
def requiredOf (n : Nat) : Nat :=
  ALIGN (ALIGN (if n = 0 then 1 else n) + HEADER_SIZE)

/-- Address-order restatement of the first-fit scan, walking the block table
instead of the free list. Under the pool invariant the free list enumerates
exactly the free blocks in address order, so the two scans coincide; the
equivalence is proved below, not assumed. -/
def allocSimple : List Block → Nat → Option (Nat × List Block)
  | [], _ => none
  | b :: bs, required =>
    if b.is_free = true ∧ required ≤ b.size then
      if HEADER_SIZE + ALIGNMENT ≤ b.size - required then
        some (b.addr + HEADER_SIZE,
          Block.mk b.addr required false ::
            Block.mk (b.addr + required) (b.size - required) true :: bs)
      else
        some (b.addr + HEADER_SIZE, Block.mk b.addr b.size false :: bs)
    else
      match allocSimple bs required with
      | none => none
      | some (u, bs2) => some (u, b :: bs2)

/-- Physical well-formedness: the blocks tile the pool contiguously starting
at offset a, each with positive size. -/
def blocksContig : Nat → List Block → Prop
  | _, [] => True
  | a, b :: bs => b.addr = a ∧ 0 < b.size ∧ blocksContig (a + b.size) bs

/-- Two blocks in physical sequence are separated: not both free and
address-adjacent. The coalesce pass establishes this and mem_alloc
preserves it. -/
def sepFree (b b2 : Block) : Prop :=
  ¬(b.is_free = true ∧ b2.is_free = true ∧ b.addr + b.size = b2.addr)

/-- No two physically adjacent blocks are both free. -/
def canonical (l : List Block) : Prop := List.Chain' sepFree l

/-- Pool invariant holding in every reachable quiescent state. -/
structure Inv (p : Pool) : Prop where
  contig : blocksContig 0 p.blocks
  total : sumSizes p.blocks = p.totalSize
  canon : canonical p.blocks
  flist : p.freeList = freeAddrs p.blocks

/-- Pool states reachable through the public allocator interface. -/
inductive Reachable : Pool → Prop where
  | init (n : Nat) : Reachable (mem_init n)
  | alloc (p : Pool) (n : Nat) : Reachable p → Reachable (mem_alloc p n).2
  | free (p : Pool) (ptr : Option Nat) : Reachable p → Reachable (mem_free p ptr).1
  | resize (p : Pool) (mem : Nat → Nat) (ptr : Option Nat) (n : Nat) :
      Reachable p → Reachable (mem_resize p mem ptr n).pool

/-! Linked list of linked_list.c. For the value-level operations the list is
its sequence of data values; for operations where node identity matters the
nodes carry their payload offset as identity. -/

/-- list_insert of linked_list.c at the level of stored values: append at
the tail (node allocation taken to succeed; on failure the C code leaves
the list unchanged). -/
def list_insert (l : List Nat) (v : Nat) : List Nat := l ++ [v]

/-- list_search of linked_list.c: first node whose data equals v, returning
its data field (the C function returns the node pointer). -/
def list_search : List Nat → Nat → Option Nat
  | [], _ => none
  | x :: xs, v => if x = v then some x else list_search xs v

/-- list_delete of linked_list.c: remove the first node whose data equals
v. -/
def list_delete : List Nat → Nat → List Nat
  | [], _ => []
  | x :: xs, v => if x = v then xs else x :: list_delete xs v

/-- Linked-list node with identity: id is the payload offset of the node in
the pool, data its uint16 value. -/
structure LNode where
  id : Nat
  data : Nat
deriving DecidableEq

/-- sizeof(struct Node) under the gcc LP64 build: uint16_t data (2 bytes
plus 6 padding), Node pointer next (8 bytes), pthread_mutex_t lock (40
bytes on x86-64 glibc). The theorems below do not depend on the value. -/
def NODE_SIZE : Nat := 56

/-- Predecessor scan of list_insert_before: walk with prev and curr, and
when curr is the target (by node identity) splice the new node between
prev and curr. The head case is handled by the caller, so a found target
always has a predecessor. Returns none when the target is not reached. -/
def spliceBefore : List LNode → Nat → LNode → Option (List LNode)
  | [], _, _ => none
  | x :: xs, tid, nn =>
    match xs with
    | [] => none
    | y :: ys =>
      if y.id = tid then some (x :: nn :: y :: ys)
      else
        match spliceBefore (y :: ys) tid nn with
        | none => none
        | some l2 => some (x :: l2)

/-- list_insert_before of linked_list.c, coupled to the pool: the node is
pre-allocated with mem_alloc; if next_node is the head the new node becomes
the head; otherwise the list is scanned for the predecessor of next_node;
when the target is absent the pre-allocated node is handed back with
mem_free and the list is unchanged. The id of the new node is the payload
offset mem_alloc returned. -/
def list_insert_before (p : Pool) (l : List LNode) (next_node : Option Nat) (v : Nat) :
    Pool × List LNode :=
  match next_node with
  | none => (p, l)
  | some tid =>
    match mem_alloc p NODE_SIZE with
    | (none, p1) => (p1, l)
    | (some ptr, p1) =>
      match l with
      | [] => ((mem_free p1 (some ptr)).1, [])
      | n :: rest =>
        if n.id = tid then (p1, LNode.mk ptr v :: n :: rest)
        else
          match spliceBefore (n :: rest) tid (LNode.mk ptr v) with
          | some l2 => (p1, l2)
          | none => ((mem_free p1 (some ptr)).1, n :: rest)

/-- Lock operations on the shared state of linked_list.c: the global
head_mutex and the per-node locks (pthread_mutex_init and destroy create
and destroy a lock without acquiring it and are not acquisition events). -/
inductive LockEvent where
  | acquireHead
  | releaseHead
  | acquireNode (id : Nat)
  | releaseNode (id : Nat)
deriving DecidableEq

/-- Tail-finding walk of list_insert (curr = curr.next until the tail): the
loop body takes no lock and releases no lock, so the walk contributes no
lock events. -/
def insertWalk : List Nat → List LockEvent
  | [] => []
  | _ :: rest => insertWalk rest

/-- Lock events performed by list_insert of linked_list.c, in order: lock
head_mutex; if the list is empty install the node as head, else walk to the
tail and link the node; unlock head_mutex. -/
def list_insert_events (l : List Nat) : List LockEvent :=
  LockEvent.acquireHead ::
    (if l = [] then [LockEvent.releaseHead]
     else insertWalk l ++ [LockEvent.releaseHead])

/-- A trace uses lock coupling only if it acquires at least one per-node
lock. -/
def usesLockCoupling (tr : List LockEvent) : Bool :=
  tr.any fun e =>
    match e with
    | LockEvent.acquireNode _ => true
    | _ => false

/-- Safety ceiling of list_count_nodes. -/
def CYCLE_LIMIT : Nat := 1000000

/-- Loop of list_count_nodes: count a node, follow next, and stop with a
cycle diagnostic once the safety counter passes CYCLE_LIMIT. The remaining
fuel is CYCLE_LIMIT minus the safety counter of the C loop; the Bool result
records whether the cycle diagnostic was printed. -/
def countLoopAux (next : Nat → Option Nat) : Nat → Option Nat → Nat → Nat × Bool
  | _, none, count => (count, false)
  | 0, some _, count => (count + 1, true)
  | rem + 1, some cur, count => countLoopAux next rem (next cur) (count + 1)

/-- list_count_nodes of linked_list.c over a node heap: next gives the
successor of each node id, head the first node. -/
def list_count_nodes (next : Nat → Option Nat) (head : Option Nat) : Nat × Bool :=
  countLoopAux next CYCLE_LIMIT head 0

/-- Reaches next h c: starting at head h and following next, the traversal
visits exactly the nodes of c and then reaches the null pointer. This is
what a terminating C traversal of an acyclic chain observes. -/
inductive Reaches (next : Nat → Option Nat) : Option Nat → List Nat → Prop where
  | nil : Reaches next none []
  | cons (v : Nat) (c : List Nat) (h : Reaches next (next v) c) :
      Reaches next (some v) (v :: c)

/-- Contract of the claim on mem_alloc: zero requests count as one byte,
the request is rounded to required = ALIGN(ALIGN(n) + HEADER_SIZE), failure
(NULL together with an unchanged pool) happens exactly when no free block
is at least required bytes, and success carves the first fitting free block
in free-list order, splitting it when the leftover is at least
HEADER_SIZE + ALIGNMENT (the remainder replacing the block in the free
list) and consuming it whole otherwise (the block leaving the free list);
the returned pointer is the payload offset just past the header. -/
def allocFirstFitSpec (p : Pool) (n : Nat) : Prop :=
  (((mem_alloc p n).1 = none ∧ (mem_alloc p n).2 = p) ↔
      ∀ b ∈ p.blocks, b.is_free = true → b.size < requiredOf n) ∧
  (∀ u p2, mem_alloc p n = (some u, p2) →
    ∃ pre b post,
      p.blocks = pre ++ b :: post ∧
      (∀ c ∈ pre, c.is_free = true → c.size < requiredOf n) ∧
      b.is_free = true ∧ requiredOf n ≤ b.size ∧
      u = b.addr + HEADER_SIZE ∧
      p.freeList = freeAddrs pre ++ b.addr :: freeAddrs post ∧
      p2.totalSize = p.totalSize ∧
      (if HEADER_SIZE + ALIGNMENT ≤ b.size - requiredOf n then
        p2.blocks = pre ++ Block.mk b.addr (requiredOf n) false ::
          Block.mk (b.addr + requiredOf n) (b.size - requiredOf n) true :: post ∧
        p2.freeList = freeAddrs pre ++ (b.addr + requiredOf n) :: freeAddrs post
      else
        p2.blocks = pre ++ Block.mk b.addr b.size false :: post ∧
        p2.freeList = freeAddrs pre ++ freeAddrs post))

/-! Arithmetic facts about the alignment macro. -/

theorem ALIGN_eq (sz : Nat) : ALIGN sz = (sz + 7) / 8 * 8 := by
  unfold ALIGN ALIGNMENT
  omega

theorem le_ALIGN (sz : Nat) : sz ≤ ALIGN sz := by
  unfold ALIGN ALIGNMENT
  omega

theorem ALIGN_mono {m n : Nat} (h : m ≤ n) : ALIGN m ≤ ALIGN n := by
  rw [ALIGN_eq, ALIGN_eq]
  exact Nat.mul_le_mul_right _ (Nat.div_le_div_right (by omega))

theorem ALIGN_mod (sz : Nat) : ALIGN sz % 8 = 0 := by
  rw [ALIGN_eq]
  exact Nat.mul_mod_left _ _

theorem HEADER_SIZE_eq : HEADER_SIZE = 24 := rfl

theorem requiredOf_ge (n : Nat) : 32 ≤ requiredOf n := by
  unfold requiredOf
  rw [HEADER_SIZE_eq]
  have h1 : 1 ≤ (if n = 0 then 1 else n) := by split <;> omega
  have h2 := le_ALIGN (if n = 0 then 1 else n)
  have h3 := le_ALIGN (ALIGN (if n = 0 then 1 else n) + 24)
  have h4 := ALIGN_mod (ALIGN (if n = 0 then 1 else n) + 24)
  omega

theorem requiredOf_mono {m n : Nat} (h : m ≤ n) : requiredOf m ≤ requiredOf n := by
  unfold requiredOf
  have hsz : (if m = 0 then 1 else m) ≤ (if n = 0 then 1 else n) := by
    split <;> split <;> omega
  exact ALIGN_mono (Nat.add_le_add_right (ALIGN_mono hsz) _)

theorem mem_alloc_eq (p : Pool) (n : Nat) :
    mem_alloc p n =
      match allocLoop p.blocks (requiredOf n) p.freeList with
      | none => (none, p)
      | some (ptr, bs, fl) =>
          (some ptr, { totalSize := p.totalSize, blocks := bs, freeList := fl }) := rfl

/-! List helper lemmas. -/

theorem find?_middle {pred : Block → Bool} (pre post : List Block) (b : Block)
    (hpre : ∀ c ∈ pre, pred c = false) (hb : pred b = true) :
    List.find? pred (pre ++ b :: post) = some b := by
  induction pre with
  | nil => simp [List.find?, hb]
  | cons c cs ih =>
    have hc := hpre c (by simp)
    simp only [List.cons_append, List.find?, hc]
    exact ih fun x hx => hpre x (by simp [hx])

theorem replaceBlock_middle (pre post repl : List Block) (b : Block)
    (hpre : ∀ c ∈ pre, c.addr ≠ b.addr) :
    replaceBlock (pre ++ b :: post) b.addr repl = pre ++ (repl ++ post) := by
  induction pre with
  | nil => simp [replaceBlock]
  | cons c cs ih =>
    have hc := hpre c (by simp)
    simp only [List.cons_append, replaceBlock, if_neg hc, List.append_eq]
    rw [ih fun x hx => hpre x (by simp [hx])]

theorem map_id_of {α : Type} (f : α → α) (l : List α) (h : ∀ x ∈ l, f x = x) :
    l.map f = l := by
  induction l with
  | nil => rfl
  | cons x xs ih =>
    simp only [List.map_cons, h x (by simp)]
    rw [ih fun y hy => h y (by simp [hy])]

theorem markFree_middle (pre post : List Block) (b : Block)
    (hpre : ∀ c ∈ pre, c.addr ≠ b.addr) (hpost : ∀ c ∈ post, c.addr ≠ b.addr) :
    markFree (pre ++ b :: post) b.addr = pre ++ Block.mk b.addr b.size true :: post := by
  unfold markFree
  rw [List.map_append, List.map_cons]
  rw [map_id_of _ pre fun c hc => by simp [hpre c hc]]
  rw [map_id_of _ post fun c hc => by simp [hpost c hc]]
  simp

theorem freeAddrs_append (l1 l2 : List Block) :
    freeAddrs (l1 ++ l2) = freeAddrs l1 ++ freeAddrs l2 := by
  simp [freeAddrs, List.filter_append]

theorem freeAddrs_cons (b : Block) (l : List Block) :
    freeAddrs (b :: l) =
      if b.is_free = true then b.addr :: freeAddrs l else freeAddrs l := by
  simp only [freeAddrs, List.filter_cons]
  split <;> simp_all

theorem sumSizes_nil : sumSizes [] = 0 := rfl

theorem sumSizes_cons (b : Block) (l : List Block) :
    sumSizes (b :: l) = b.size + sumSizes l := by
  simp [sumSizes]

theorem sumSizes_append (l1 l2 : List Block) :
    sumSizes (l1 ++ l2) = sumSizes l1 + sumSizes l2 := by
  simp [sumSizes]

theorem sumSizes_partition (l : List Block) :
    sumSizes (l.filter fun b => b.is_free) + sumSizes (l.filter fun b => !b.is_free)
      = sumSizes l := by
  induction l with
  | nil => rfl
  | cons b bs ih =>
    by_cases hb : b.is_free = true <;>
      simp [List.filter_cons, hb, sumSizes_cons] <;> omega

/-! Facts about contiguous block tables. -/

theorem blocksContig_append {l1 l2 : List Block} {a : Nat} :
    blocksContig a (l1 ++ l2) ↔
      blocksContig a l1 ∧ blocksContig (a + sumSizes l1) l2 := by
  induction l1 generalizing a with
  | nil => simp [blocksContig, sumSizes_nil]
  | cons b bs ih =>
    simp only [List.cons_append, blocksContig, List.append_eq, ih, sumSizes_cons,
      ← Nat.add_assoc]
    tauto

theorem blocksContig_addr_ge {a : Nat} {l : List Block} (h : blocksContig a l) :
    ∀ c ∈ l, a ≤ c.addr := by
  induction l generalizing a with
  | nil => intro c hc; cases hc
  | cons b bs ih =>
    intro c hc
    obtain ⟨hb, hpos, htail⟩ := h
    rcases List.mem_cons.mp hc with rfl | hc
    · omega
    · have := ih htail c hc
      omega

theorem blocksContig_addr_lt_end {a : Nat} {l : List Block} (h : blocksContig a l) :
    ∀ c ∈ l, c.addr < a + sumSizes l := by
  induction l generalizing a with
  | nil => intro c hc; cases hc
  | cons b bs ih =>
    intro c hc
    obtain ⟨hb, hpos, htail⟩ := h
    rw [sumSizes_cons]
    rcases List.mem_cons.mp hc with rfl | hc
    · omega
    · have := ih htail c hc
      omega

theorem blocksContig_mid {a : Nat} {pre post : List Block} {b : Block}
    (h : blocksContig a (pre ++ b :: post)) :
    b.addr = a + sumSizes pre ∧ 0 < b.size ∧
      blocksContig (b.addr + b.size) post ∧
      (∀ c ∈ pre, c.addr < b.addr) ∧ (∀ c ∈ post, b.addr < c.addr) := by
  rw [blocksContig_append] at h
  obtain ⟨hpre, hmid⟩ := h
  obtain ⟨hb, hpos, htail⟩ := hmid
  refine ⟨hb, hpos, by rw [hb]; exact htail, ?_, ?_⟩
  · intro c hc
    have := blocksContig_addr_lt_end hpre c hc
    omega
  · intro c hc
    have := blocksContig_addr_ge htail c hc
    omega

/-! Characterization of the address-order first-fit scan. -/

theorem allocSimple_none_iff {bs : List Block} {required : Nat} :
    allocSimple bs required = none ↔
      ∀ b ∈ bs, b.is_free = true → b.size < required := by
  induction bs with
  | nil => simp [allocSimple]
  | cons b bs ih =>
    rw [allocSimple]
    by_cases hfit : b.is_free = true ∧ required ≤ b.size
    · rw [if_pos hfit]
      constructor
      · intro h
        split at h <;> cases h
      · intro h
        have := h b (by simp) hfit.1
        omega
    · rw [if_neg hfit]
      cases hre : allocSimple bs required with
      | none =>
        simp only []
        constructor
        · intro _ c hc hcf
          rcases List.mem_cons.mp hc with rfl | hc
          · by_cases hf : c.is_free = true
            · push_neg at hfit
              have := hfit hf
              omega
            · exact absurd hcf hf
          · exact ih.mp hre c hc hcf
        · intro _
          trivial
      | some r =>
        obtain ⟨u, bs2⟩ := r
        simp only []
        constructor
        · intro h
          cases h
        · intro h
          have hnone : allocSimple bs required = none :=
            ih.mpr fun c hc hcf => h c (by simp [hc]) hcf
          rw [hre] at hnone
          cases hnone

theorem allocSimple_some {bs : List Block} {required u : Nat} {bs2 : List Block}
    (h : allocSimple bs required = some (u, bs2)) :
    ∃ pre b post, bs = pre ++ b :: post ∧
      (∀ c ∈ pre, c.is_free = true → c.size < required) ∧
      b.is_free = true ∧ required ≤ b.size ∧ u = b.addr + HEADER_SIZE ∧
      bs2 = pre ++
        (if HEADER_SIZE + ALIGNMENT ≤ b.size - required then
          [Block.mk b.addr required false,
           Block.mk (b.addr + required) (b.size - required) true]
         else [Block.mk b.addr b.size false]) ++ post := by
  induction bs generalizing u bs2 with
  | nil => cases h
  | cons b bs ih =>
    rw [allocSimple] at h
    by_cases hfit : b.is_free = true ∧ required ≤ b.size
    · rw [if_pos hfit] at h
      by_cases hsplit : HEADER_SIZE + ALIGNMENT ≤ b.size - required
      · rw [if_pos hsplit] at h
        simp only [Option.some.injEq, Prod.mk.injEq] at h
        obtain ⟨hu, hbs⟩ := h
        exact ⟨[], b, bs, rfl, by simp, hfit.1, hfit.2, hu.symm,
          by rw [if_pos hsplit]; simpa using hbs.symm⟩
      · rw [if_neg hsplit] at h
        simp only [Option.some.injEq, Prod.mk.injEq] at h
        obtain ⟨hu, hbs⟩ := h
        exact ⟨[], b, bs, rfl, by simp, hfit.1, hfit.2, hu.symm,
          by rw [if_neg hsplit]; simpa using hbs.symm⟩
    · rw [if_neg hfit] at h
      cases hre : allocSimple bs required with
      | none =>
        rw [hre] at h
        cases h
      | some r =>
        obtain ⟨u2, bs3⟩ := r
        rw [hre] at h
        simp only [Option.some.injEq, Prod.mk.injEq] at h
        obtain ⟨hu, hbs⟩ := h
        obtain ⟨pre, bb, post, heq, hpre, hf, hfit2, hu2, hbs3⟩ := ih hre
        refine ⟨b :: pre, bb, post, by rw [heq]; rfl, ?_, hf, hfit2, by omega, ?_⟩
        · intro c hc
          rcases List.mem_cons.mp hc with rfl | hc
          · intro hcf
            push_neg at hfit
            have := hfit hcf
            omega
          · exact hpre c hc
        · rw [← hbs, hbs3]
          rfl

/-! Refinement: under contiguity, the free-list scan of mem_alloc coincides
with the address-order scan, because the free list enumerates the free
blocks in address order. -/

theorem allocLoop_eq_simple (required : Nat) (suf : List Block) :
    ∀ pre : List Block, blocksContig 0 (pre ++ suf) →
    allocLoop (pre ++ suf) required (freeAddrs suf) =
      (match allocSimple suf required with
       | none => none
       | some (u, suf2) => some (u, pre ++ suf2, freeAddrs suf2)) := by
  induction suf with
  | nil =>
    intro pre h
    simp [freeAddrs, allocLoop, allocSimple]
  | cons b bs ih =>
    intro pre hcontig
    obtain ⟨hb_addr, hbpos, htail, hlt_pre, hlt_post⟩ := blocksContig_mid hcontig
    have hcontig2 : blocksContig 0 ((pre ++ [b]) ++ bs) := by
      rw [List.append_assoc, List.singleton_append]
      exact hcontig
    have hAt : blockAt (pre ++ b :: bs) b.addr = some b := by
      unfold blockAt
      apply find?_middle
      · intro c hc
        have := hlt_pre c hc
        simp only [beq_eq_false_iff_ne]
        omega
      · simp
    by_cases hbf : b.is_free = true
    · rw [freeAddrs_cons, if_pos hbf, allocLoop, hAt]
      simp only []
      by_cases hfit : required ≤ b.size
      · rw [if_pos ⟨hbf, hfit⟩]
        rw [allocSimple, if_pos ⟨hbf, hfit⟩]
        unfold split_block
        by_cases hsplit : HEADER_SIZE + ALIGNMENT ≤ b.size - required
        · rw [if_pos hsplit, if_pos hsplit]
          have hrepl := replaceBlock_middle pre bs
            [Block.mk b.addr required false,
             Block.mk (b.addr + required) (b.size - required) true] b
            (fun c hc => by have := hlt_pre c hc; omega)
          simp only [hrepl, freeAddrs_cons]
          simp
        · rw [if_neg hsplit, if_neg hsplit]
          have hrepl := replaceBlock_middle pre bs
            [Block.mk b.addr b.size false] b
            (fun c hc => by have := hlt_pre c hc; omega)
          simp only [hrepl, freeAddrs_cons]
          simp
      · rw [if_neg (by tauto)]
        rw [allocSimple, if_neg (by tauto)]
        have hrec := ih (pre ++ [b]) hcontig2
        rw [List.append_assoc, List.singleton_append] at hrec
        rw [hrec]
        cases hre : allocSimple bs required with
        | none => simp
        | some r =>
          obtain ⟨u, bs2⟩ := r
          simp only [freeAddrs_cons, if_pos hbf]
          simp [List.append_assoc]
    · rw [freeAddrs_cons, if_neg hbf]
      rw [allocSimple, if_neg (by tauto)]
      have hrec := ih (pre ++ [b]) hcontig2
      rw [List.append_assoc, List.singleton_append] at hrec
      rw [hrec]
      cases hre : allocSimple bs required with
      | none => simp
      | some r =>
        obtain ⟨u, bs2⟩ := r
        simp only [freeAddrs_cons, if_neg hbf]
        simp [List.append_assoc]

theorem mem_alloc_spec (p : Pool) (n : Nat) (hInv : Inv p) :
    mem_alloc p n =
      (match allocSimple p.blocks (requiredOf n) with
       | none => (none, p)
       | some (u, bs2) =>
          (some u,
           { totalSize := p.totalSize, blocks := bs2, freeList := freeAddrs bs2 })) := by
  rw [mem_alloc_eq]
  have h := allocLoop_eq_simple (requiredOf n) p.blocks [] (by simpa using hInv.contig)
  rw [List.nil_append] at h
  rw [hInv.flist, h]
  cases allocSimple p.blocks (requiredOf n) with
  | none => rfl
  | some r =>
    obtain ⟨u, bs2⟩ := r
    simp

theorem sepFree_of_used_right {x y : Block} (h : y.is_free = false) : sepFree x y := by
  simp [sepFree, h]

theorem sepFree_of_used_left {x y : Block} (h : x.is_free = false) : sepFree x y := by
  simp [sepFree, h]

theorem Inv_init (n : Nat) : Inv (mem_init n) := by
  have h1 : 1 ≤ (if n = 0 then 1 else n) := by split <;> omega
  have h2 := le_ALIGN (if n = 0 then 1 else n)
  constructor
  · refine ⟨rfl, ?_, trivial⟩
    show 0 < ALIGN (if n = 0 then 1 else n)
    omega
  · simp [mem_init, sumSizes]
  · simp [mem_init, canonical]
  · simp [mem_init, freeAddrs]

theorem alloc_pres {p : Pool} {n : Nat} (hInv : Inv p) : Inv (mem_alloc p n).2 := by
  rw [mem_alloc_spec p n hInv]
  cases hre : allocSimple p.blocks (requiredOf n) with
  | none => exact hInv
  | some r =>
    obtain ⟨u, bs2⟩ := r
    simp only []
    obtain ⟨pre, b, post, heq, hpre, hbf, hfit, hu, hbs2⟩ := allocSimple_some hre
    have hreq := requiredOf_ge n
    have h32 : HEADER_SIZE + ALIGNMENT = 32 := rfl
    have hcontig := hInv.contig
    rw [heq] at hcontig
    obtain ⟨hb_addr, hbpos, htail, hlt_pre, hlt_post⟩ := blocksContig_mid hcontig
    obtain ⟨hcpre, hcmid⟩ := (blocksContig_append).mp hcontig
    have hcanon := hInv.canon
    rw [heq] at hcanon
    unfold canonical at hcanon
    rw [List.chain'_append] at hcanon
    obtain ⟨hchpre, hchmid, hchbound⟩ := hcanon
    have hchpost : List.Chain' sepFree post := (List.chain'_cons'.mp hchmid).2
    -- the block after b is address-adjacent to b by contiguity, and the chain
    -- condition on the pair (b, head of post) then forces it to be used
    have hpostused : ∀ y ∈ post.head?, y.is_free = false := by
      intro y hy
      have hsep : sepFree b y := (List.chain'_cons'.mp hchmid).1 y hy
      have hyaddr : y.addr = b.addr + b.size := by
        cases post with
        | nil => cases hy
        | cons q qs =>
          obtain ⟨hq, _, _⟩ := htail
          simp only [List.head?, Option.mem_def, Option.some.injEq] at hy
          subst hy
          exact hq
      by_cases hyf : y.is_free = true
      · exact absurd ⟨hbf, hyf, hyaddr.symm⟩ hsep
      · simpa using hyf
    have hsum := hInv.total
    rw [heq] at hsum
    rw [sumSizes_append, sumSizes_cons] at hsum
    rw [hbs2, List.append_assoc]
    by_cases hsplit : HEADER_SIZE + ALIGNMENT ≤ b.size - requiredOf n
    · rw [if_pos hsplit]
      constructor
      · -- contiguity
        rw [blocksContig_append]
        refine ⟨hcpre, ?_, ?_, ?_⟩
        · show b.addr = 0 + sumSizes pre
          omega
        · show 0 < requiredOf n
          omega
        · refine ⟨?_, ?_, ?_⟩
          · show b.addr + requiredOf n = 0 + sumSizes pre + requiredOf n
            omega
          · show 0 < b.size - requiredOf n
            omega
          · show blocksContig
              (0 + sumSizes pre + requiredOf n + (b.size - requiredOf n)) post
            have he : 0 + sumSizes pre + requiredOf n + (b.size - requiredOf n)
                = b.addr + b.size := by omega
            rw [he]
            exact htail
      · -- size conservation
        simp only [sumSizes_append, sumSizes_cons, sumSizes_nil]
        omega
      · -- canonical
        unfold canonical
        rw [List.chain'_append]
        refine ⟨hchpre, ?_, ?_⟩
        · rw [List.cons_append, List.cons_append, List.nil_append, List.chain'_cons]
          refine ⟨sepFree_of_used_left rfl, ?_⟩
          rw [List.chain'_cons']
          exact ⟨fun y hy => sepFree_of_used_right (hpostused y hy), hchpost⟩
        · intro x hx y hy
          simp only [List.cons_append, List.head?, Option.mem_def,
            Option.some.injEq] at hy
          subst hy
          exact sepFree_of_used_right rfl
      · rfl
    · rw [if_neg hsplit]
      constructor
      · rw [blocksContig_append]
        refine ⟨hcpre, ?_, ?_, ?_⟩
        · show b.addr = 0 + sumSizes pre
          omega
        · show 0 < b.size
          omega
        · show blocksContig (0 + sumSizes pre + b.size) post
          have he : 0 + sumSizes pre + b.size = b.addr + b.size := by omega
          rw [he]
          exact htail
      · simp only [sumSizes_append, sumSizes_cons, sumSizes_nil]
        omega
      · unfold canonical
        rw [List.chain'_append]
        refine ⟨hchpre, ?_, ?_⟩
        · rw [List.cons_append, List.nil_append, List.chain'_cons']
          exact ⟨fun y hy => sepFree_of_used_right (hpostused y hy), hchpost⟩
        · intro x hx y hy
          simp only [List.cons_append, List.head?, Option.mem_def,
            Option.some.injEq] at hy
          subst hy
          exact sepFree_of_used_right rfl
      · rfl

/-! Properties of the coalesce pass. -/

theorem coalesceInto_id {pf : Block} {l : List Block}
    (h : List.Chain' sepFree (pf :: l)) : coalesceInto pf l = pf :: l := by
  induction l generalizing pf with
  | nil => rfl
  | cons b bs ih =>
    have hsep : sepFree pf b := (List.chain'_cons.mp h).1
    rw [coalesceInto, if_neg hsep]
    rw [ih (List.chain'_cons.mp h).2]

theorem coalesceBlocks_id {l : List Block} (h : canonical l) : coalesceBlocks l = l := by
  cases l with
  | nil => rfl
  | cons b bs => exact coalesceInto_id h

theorem coalesceInto_head (pf : Block) (l : List Block) :
    ∃ s rest, pf.size ≤ s ∧
      coalesceInto pf l = Block.mk pf.addr s pf.is_free :: rest := by
  induction l generalizing pf with
  | nil => exact ⟨pf.size, [], le_rfl, rfl⟩
  | cons b bs ih =>
    rw [coalesceInto]
    by_cases hc : pf.is_free = true ∧ b.is_free = true ∧ pf.addr + pf.size = b.addr
    · rw [if_pos hc]
      obtain ⟨s, rest, hle, heq⟩ := ih (Block.mk pf.addr (pf.size + b.size) true)
      have hle2 : pf.size + b.size ≤ s := hle
      refine ⟨s, rest, by omega, ?_⟩
      rw [heq, hc.1]
    · rw [if_neg hc]
      exact ⟨pf.size, coalesceInto b bs, le_rfl, rfl⟩

theorem coalesceInto_contig {a : Nat} {pf : Block} {l : List Block}
    (h : blocksContig a (pf :: l)) : blocksContig a (coalesceInto pf l) := by
  induction l generalizing a pf with
  | nil => exact h
  | cons b bs ih =>
    obtain ⟨hpf, hpos, hb, hbpos, htail⟩ := h
    rw [coalesceInto]
    by_cases hc : pf.is_free = true ∧ b.is_free = true ∧ pf.addr + pf.size = b.addr
    · rw [if_pos hc]
      apply ih (a := a)
      refine ⟨hpf, by show 0 < pf.size + b.size; omega, ?_⟩
      show blocksContig (a + (pf.size + b.size)) bs
      have he : a + (pf.size + b.size) = a + pf.size + b.size := by omega
      rw [he]
      exact htail
    · rw [if_neg hc]
      exact ⟨hpf, hpos, ih ⟨hb, hbpos, htail⟩⟩

theorem coalesceInto_sum (pf : Block) (l : List Block) :
    sumSizes (coalesceInto pf l) = pf.size + sumSizes l := by
  induction l generalizing pf with
  | nil => simp [coalesceInto, sumSizes_cons, sumSizes_nil]
  | cons b bs ih =>
    rw [coalesceInto]
    by_cases hc : pf.is_free = true ∧ b.is_free = true ∧ pf.addr + pf.size = b.addr
    · rw [if_pos hc, ih]
      rw [sumSizes_cons]
      simp only []
      omega
    · rw [if_neg hc, sumSizes_cons, ih, sumSizes_cons]

theorem coalesceInto_sumFree (pf : Block) (l : List Block) :
    sumSizes ((coalesceInto pf l).filter fun b => b.is_free)
      = sumSizes ((pf :: l).filter fun b => b.is_free) := by
  induction l generalizing pf with
  | nil => rfl
  | cons b bs ih =>
    rw [coalesceInto]
    by_cases hc : pf.is_free = true ∧ b.is_free = true ∧ pf.addr + pf.size = b.addr
    · rw [if_pos hc, ih]
      rw [List.filter_cons, List.filter_cons, List.filter_cons]
      rw [if_pos (show (Block.mk pf.addr (pf.size + b.size) true).is_free = true from rfl)]
      rw [if_pos hc.1, if_pos hc.2.1]
      rw [sumSizes_cons, sumSizes_cons, sumSizes_cons]
      simp only []
      omega
    · rw [if_neg hc]
      simp only [List.filter_cons]
      cases hpf : pf.is_free <;> simp [List.filter_cons, sumSizes_cons, ih]

theorem coalesceInto_canonical {a : Nat} {pf : Block} {l : List Block}
    (h : blocksContig a (pf :: l)) : List.Chain' sepFree (coalesceInto pf l) := by
  induction l generalizing a pf with
  | nil => simp [coalesceInto]
  | cons b bs ih =>
    obtain ⟨hpf, hpos, hb, hbpos, htail⟩ := h
    rw [coalesceInto]
    by_cases hc : pf.is_free = true ∧ b.is_free = true ∧ pf.addr + pf.size = b.addr
    · rw [if_pos hc]
      apply ih (a := a)
      refine ⟨hpf, by show 0 < pf.size + b.size; omega, ?_⟩
      show blocksContig (a + (pf.size + b.size)) bs
      have he : a + (pf.size + b.size) = a + pf.size + b.size := by omega
      rw [he]
      exact htail
    · rw [if_neg hc]
      rw [List.chain'_cons']
      constructor
      · intro y hy
        obtain ⟨s, rest, hle, heq⟩ := coalesceInto_head b bs
        rw [heq] at hy
        simp only [List.head?, Option.mem_def, Option.some.injEq] at hy
        subst hy
        intro hcon
        exact hc ⟨hcon.1, hcon.2.1, hcon.2.2⟩
      · exact ih (a := a + pf.size) ⟨hb, hbpos, htail⟩

theorem coalesceInto_split_undo {a s req : Nat} {post : List Block} :
    ∀ (rest : List Block) (pf : Block),
    List.Chain' sepFree (pf :: (rest ++ Block.mk a s true :: post)) →
    req ≤ s →
    coalesceInto pf
        (rest ++ Block.mk a req true :: Block.mk (a + req) (s - req) true :: post)
      = pf :: (rest ++ Block.mk a s true :: post) := by
  intro rest
  induction rest with
  | nil =>
    intro pf hch hle
    simp only [List.nil_append] at hch ⊢
    have hsep : sepFree pf (Block.mk a s true) := (List.chain'_cons.mp hch).1
    rw [coalesceInto, if_neg ?hneg]
    case hneg =>
      intro hcon
      exact hsep ⟨hcon.1, rfl, hcon.2.2⟩
    rw [coalesceInto, if_pos ⟨rfl, rfl, rfl⟩]
    simp only []
    have hs : req + (s - req) = s := by omega
    rw [hs]
    rw [coalesceInto_id (List.chain'_cons.mp hch).2]
  | cons q qs ih =>
    intro pf hch hle
    simp only [List.cons_append] at hch ⊢
    have hsep : sepFree pf q := (List.chain'_cons.mp hch).1
    rw [coalesceInto, if_neg hsep]
    rw [ih q (List.chain'_cons.mp hch).2 hle]

theorem coalesceBlocks_split_undo {a s req : Nat} {pre post : List Block}
    (hch : List.Chain' sepFree (pre ++ Block.mk a s true :: post))
    (hle : req ≤ s) :
    coalesceBlocks
        (pre ++ Block.mk a req true :: Block.mk (a + req) (s - req) true :: post)
      = pre ++ Block.mk a s true :: post := by
  cases pre with
  | nil =>
    simp only [List.nil_append] at hch ⊢
    rw [coalesceBlocks]
    rw [coalesceInto, if_pos ⟨rfl, rfl, rfl⟩]
    simp only []
    have hs : req + (s - req) = s := by omega
    rw [hs]
    exact coalesceInto_id hch
  | cons q qs =>
    simp only [List.cons_append] at hch ⊢
    rw [coalesceBlocks]
    exact coalesceInto_split_undo qs q hch hle

/-! The rebuild pass establishes the pool invariant. -/

theorem rebuild_Inv {p : Pool} (hc : blocksContig 0 p.blocks)
    (ht : sumSizes p.blocks = p.totalSize) :
    Inv (rebuild_free_list_and_coalesce p) := by
  unfold rebuild_free_list_and_coalesce
  cases hb : p.blocks with
  | nil =>
    constructor
    · exact trivial
    · rw [hb] at ht
      exact ht
    · simp [canonical, coalesceBlocks]
    · rfl
  | cons b bs =>
    rw [hb] at hc ht
    constructor
    · rw [coalesceBlocks]
      exact coalesceInto_contig hc
    · rw [coalesceBlocks, coalesceInto_sum, ← sumSizes_cons]
      exact ht
    · rw [coalesceBlocks]
      exact coalesceInto_canonical hc
    · rfl

/-! Equation lemmas for mem_free. -/

theorem mem_free_none (p : Pool) : mem_free p none = (p, none) := rfl

theorem mem_free_out {p : Pool} {u : Nat} (h : p.totalSize ≤ u) :
    mem_free p (some u) = (p, some Diag.invalidPointer) := by
  unfold mem_free
  simp only []
  rw [if_pos h]

theorem mem_free_nohdr {p : Pool} {u : Nat} (h1 : ¬p.totalSize ≤ u)
    (h2 : blockAt p.blocks (u - HEADER_SIZE) = none) :
    mem_free p (some u) = (p, none) := by
  unfold mem_free
  simp only []
  rw [if_neg h1, h2]

theorem mem_free_double {p : Pool} {u : Nat} {hdr : Block} (h1 : ¬p.totalSize ≤ u)
    (h2 : blockAt p.blocks (u - HEADER_SIZE) = some hdr) (h3 : hdr.is_free = true) :
    mem_free p (some u) = (p, some Diag.doubleFree) := by
  unfold mem_free
  simp only []
  rw [if_neg h1, h2]
  simp only []
  rw [if_pos h3]

theorem mem_free_used {p : Pool} {u : Nat} {hdr : Block} (h1 : ¬p.totalSize ≤ u)
    (h2 : blockAt p.blocks (u - HEADER_SIZE) = some hdr) (h3 : hdr.is_free = false) :
    mem_free p (some u) =
      (rebuild_free_list_and_coalesce
        { totalSize := p.totalSize
          blocks := markFree p.blocks (u - HEADER_SIZE)
          freeList := p.freeList }, none) := by
  unfold mem_free
  simp only []
  rw [if_neg h1, h2]
  simp only []
  rw [if_neg (by simp [h3])]

theorem markFree_contig {a x : Nat} {l : List Block} (h : blocksContig a l) :
    blocksContig a (markFree l x) := by
  induction l generalizing a with
  | nil => exact h
  | cons b bs ih =>
    obtain ⟨hb, hpos, htail⟩ := h
    unfold markFree
    rw [List.map_cons]
    by_cases hbx : b.addr = x
    · rw [if_pos hbx]
      exact ⟨hb, hpos, ih htail⟩
    · rw [if_neg hbx]
      exact ⟨hb, hpos, ih htail⟩

theorem markFree_sum {x : Nat} (l : List Block) :
    sumSizes (markFree l x) = sumSizes l := by
  induction l with
  | nil => rfl
  | cons b bs ih =>
    unfold markFree at ih ⊢
    rw [List.map_cons, sumSizes_cons, sumSizes_cons, ih]
    by_cases hbx : b.addr = x
    · rw [if_pos hbx]
    · rw [if_neg hbx]

theorem free_pres {p : Pool} {ptr : Option Nat} (hInv : Inv p) :
    Inv (mem_free p ptr).1 := by
  cases ptr with
  | none => rw [mem_free_none]; exact hInv
  | some u =>
    by_cases h1 : p.totalSize ≤ u
    · rw [mem_free_out h1]
      exact hInv
    · cases h2 : blockAt p.blocks (u - HEADER_SIZE) with
      | none =>
        rw [mem_free_nohdr h1 h2]
        exact hInv
      | some hdr =>
        cases h3 : hdr.is_free with
        | true =>
          rw [mem_free_double h1 h2 h3]
          exact hInv
        | false =>
          rw [mem_free_used h1 h2 h3]
          exact rebuild_Inv (markFree_contig hInv.contig)
            (by rw [markFree_sum]; exact hInv.total)

/-! Round trip: freeing a block just carved out by mem_alloc restores the
pool exactly (the coalesce pass glues a split block back together, and the
invariant guarantees nothing else merges). -/

theorem free_alloc_roundtrip {p p1 : Pool} {n u : Nat} (hInv : Inv p)
    (h : mem_alloc p n = (some u, p1)) :
    mem_free p1 (some u) = (p, none) := by
  rw [mem_alloc_spec p n hInv] at h
  cases hre : allocSimple p.blocks (requiredOf n) with
  | none =>
    rw [hre] at h
    simp at h
  | some r =>
    obtain ⟨u2, bs2⟩ := r
    rw [hre] at h
    simp only [Prod.mk.injEq, Option.some.injEq] at h
    obtain ⟨huu, hp1⟩ := h
    subst hp1
    obtain ⟨pre, b, post, heq, hpre, hbf, hfit, hu2, hbs2⟩ := allocSimple_some hre
    obtain ⟨ba, bsz, bf⟩ := b
    simp only [] at hbf hfit hu2 hbs2 heq
    subst hbf
    subst huu
    subst hu2
    have hreq := requiredOf_ge n
    have hcontig := hInv.contig
    rw [heq] at hcontig
    obtain ⟨hb_addr, hbpos, htail, hlt_pre, hlt_post⟩ := blocksContig_mid hcontig
    simp only [] at hb_addr hbpos htail hlt_pre hlt_post
    have hsum := hInv.total
    rw [heq, sumSizes_append, sumSizes_cons] at hsum
    simp only [] at hsum
    have hcanon := hInv.canon
    rw [heq] at hcanon
    -- the payload pointer is inside the pool
    have hin : ¬(p.totalSize ≤ ba + HEADER_SIZE) := by
      rw [HEADER_SIZE_eq]
      omega
    have hsub : ba + HEADER_SIZE - HEADER_SIZE = ba := by omega
    by_cases hsplit : HEADER_SIZE + ALIGNMENT ≤ bsz - requiredOf n
    · rw [if_pos hsplit] at hbs2
      simp only [List.append_assoc, List.cons_append, List.nil_append] at hbs2
      subst hbs2
      have hAt : blockAt
          (pre ++ Block.mk ba (requiredOf n) false ::
            Block.mk (ba + requiredOf n) (bsz - requiredOf n) true :: post) ba
          = some (Block.mk ba (requiredOf n) false) := by
        unfold blockAt
        rw [show pre ++ Block.mk ba (requiredOf n) false ::
              Block.mk (ba + requiredOf n) (bsz - requiredOf n) true :: post
            = pre ++ Block.mk ba (requiredOf n) false ::
              (Block.mk (ba + requiredOf n) (bsz - requiredOf n) true :: post)
          from rfl]
        apply find?_middle
        · intro c hc
          have := hlt_pre c hc
          simp only [beq_eq_false_iff_ne]
          omega
        · simp
      have h32 : HEADER_SIZE + ALIGNMENT = 32 := rfl
      rw [mem_free_used (by simpa using hin) (by rw [show (Pool.mk p.totalSize _ _).blocks = _ from rfl, hsub]; exact hAt) rfl]
      simp only [hsub]
      have hmark := markFree_middle pre
        (Block.mk (ba + requiredOf n) (bsz - requiredOf n) true :: post)
        (Block.mk ba (requiredOf n) false)
        (fun c hc => by have := hlt_pre c hc; simp only []; omega)
        (by
          intro c hc
          rcases List.mem_cons.mp hc with rfl | hc
          · simp only []
            omega
          · have := hlt_post c hc
            simp only []
            omega)
      simp only [] at hmark
      rw [show markFree (pre ++ Block.mk ba (requiredOf n) false ::
            Block.mk (ba + requiredOf n) (bsz - requiredOf n) true :: post) ba
          = pre ++ Block.mk ba (requiredOf n) true ::
            Block.mk (ba + requiredOf n) (bsz - requiredOf n) true :: post
        from hmark]
      unfold rebuild_free_list_and_coalesce
      rw [show (Pool.mk p.totalSize (pre ++ Block.mk ba (requiredOf n) true ::
            Block.mk (ba + requiredOf n) (bsz - requiredOf n) true :: post)
            p.freeList).blocks
          = pre ++ Block.mk ba (requiredOf n) true ::
            Block.mk (ba + requiredOf n) (bsz - requiredOf n) true :: post from rfl]
      rw [coalesceBlocks_split_undo hcanon hfit]
      rw [Prod.mk.injEq]
      refine ⟨?_, rfl⟩
      rw [show p = Pool.mk p.totalSize p.blocks p.freeList from rfl]
      simp only [heq, hInv.flist]
    · rw [if_neg hsplit] at hbs2
      simp only [List.append_assoc, List.cons_append, List.nil_append] at hbs2
      subst hbs2
      have hAt : blockAt (pre ++ Block.mk ba bsz false :: post) ba
          = some (Block.mk ba bsz false) := by
        unfold blockAt
        apply find?_middle
        · intro c hc
          have := hlt_pre c hc
          simp only [beq_eq_false_iff_ne]
          omega
        · simp
      rw [mem_free_used (by simpa using hin) (by rw [show (Pool.mk p.totalSize _ _).blocks = _ from rfl, hsub]; exact hAt) rfl]
      simp only [hsub]
      have hmark := markFree_middle pre post (Block.mk ba bsz false)
        (fun c hc => by have := hlt_pre c hc; simp only []; omega)
        (fun c hc => by have := hlt_post c hc; simp only []; omega)
      simp only [] at hmark
      rw [show markFree (pre ++ Block.mk ba bsz false :: post) ba
          = pre ++ Block.mk ba bsz true :: post from hmark]
      unfold rebuild_free_list_and_coalesce
      rw [show (Pool.mk p.totalSize (pre ++ Block.mk ba bsz true :: post)
            p.freeList).blocks = pre ++ Block.mk ba bsz true :: post from rfl]
      rw [coalesceBlocks_id (show canonical (pre ++ Block.mk ba bsz true :: post)
        from hcanon)]
      rw [Prod.mk.injEq]
      refine ⟨?_, rfl⟩
      rw [show p = Pool.mk p.totalSize p.blocks p.freeList from rfl]
      simp only [heq, hInv.flist]

/-! Equation lemmas for mem_resize. -/

theorem mem_resize_null (p : Pool) (mem : Nat → Nat) (n : Nat) :
    mem_resize p mem none n =
      ResizeResult.mk (mem_alloc p n).1 (mem_alloc p n).2 mem none := rfl

theorem mem_resize_zero (p : Pool) (mem : Nat → Nat) (u : Nat) :
    mem_resize p mem (some u) 0 =
      ResizeResult.mk none (mem_free p (some u)).1 mem (mem_free p (some u)).2 := rfl

theorem mem_resize_nohdr {p : Pool} {u n : Nat} (mem : Nat → Nat) (hn : ¬n = 0)
    (hat : blockAt p.blocks (u - HEADER_SIZE) = none) :
    mem_resize p mem (some u) n = ResizeResult.mk none p mem none := by
  unfold mem_resize
  simp only []
  rw [if_neg hn, hat]

theorem mem_resize_freed {p : Pool} {u n : Nat} {old : Block} (mem : Nat → Nat)
    (hn : ¬n = 0) (hat : blockAt p.blocks (u - HEADER_SIZE) = some old)
    (hof : old.is_free = true) :
    mem_resize p mem (some u) n =
      ResizeResult.mk none p mem (some Diag.resizeFreed) := by
  unfold mem_resize
  simp only []
  rw [if_neg hn, hat]
  simp only []
  rw [if_pos hof]

theorem mem_resize_fits {p : Pool} {u n : Nat} {old : Block} (mem : Nat → Nat)
    (hn : ¬n = 0) (hat : blockAt p.blocks (u - HEADER_SIZE) = some old)
    (hof : old.is_free = false) (hfits : ALIGN n + HEADER_SIZE ≤ old.size) :
    mem_resize p mem (some u) n = ResizeResult.mk (some u) p mem none := by
  unfold mem_resize
  simp only []
  rw [if_neg hn, hat]
  simp only []
  rw [if_neg (by simp [hof]), if_pos hfits]

theorem mem_resize_grow_fail {p p1 : Pool} {u n : Nat} {old : Block}
    (mem : Nat → Nat) (hn : ¬n = 0)
    (hat : blockAt p.blocks (u - HEADER_SIZE) = some old)
    (hof : old.is_free = false) (hfits : ¬ALIGN n + HEADER_SIZE ≤ old.size)
    (hall : mem_alloc p n = (none, p1)) :
    mem_resize p mem (some u) n = ResizeResult.mk none p1 mem none := by
  unfold mem_resize
  simp only []
  rw [if_neg hn, hat]
  simp only []
  rw [if_neg (by simp [hof]), if_neg hfits, hall]

theorem mem_resize_grow_ok {p p1 : Pool} {u n nb : Nat} {old : Block}
    (mem : Nat → Nat) (hn : ¬n = 0)
    (hat : blockAt p.blocks (u - HEADER_SIZE) = some old)
    (hof : old.is_free = false) (hfits : ¬ALIGN n + HEADER_SIZE ≤ old.size)
    (hall : mem_alloc p n = (some nb, p1)) :
    mem_resize p mem (some u) n =
      ResizeResult.mk (some nb) (mem_free p1 (some u)).1
        (memcpyF mem nb u
          (if (if HEADER_SIZE ≤ old.size then old.size - HEADER_SIZE else 0) < n
           then (if HEADER_SIZE ≤ old.size then old.size - HEADER_SIZE else 0)
           else n))
        (mem_free p1 (some u)).2 := by
  unfold mem_resize
  simp only []
  rw [if_neg hn, hat]
  simp only []
  rw [if_neg (by simp [hof]), if_neg hfits, hall]

theorem resize_pres {p : Pool} {mem : Nat → Nat} {ptr : Option Nat} {n : Nat}
    (hInv : Inv p) : Inv (mem_resize p mem ptr n).pool := by
  cases ptr with
  | none =>
    rw [mem_resize_null]
    exact alloc_pres hInv
  | some u =>
    by_cases hn : n = 0
    · subst hn
      rw [mem_resize_zero]
      exact free_pres hInv
    · cases hat : blockAt p.blocks (u - HEADER_SIZE) with
      | none =>
        rw [mem_resize_nohdr mem hn hat]
        exact hInv
      | some old =>
        cases hof : old.is_free with
        | true =>
          rw [mem_resize_freed mem hn hat hof]
          exact hInv
        | false =>
          by_cases hfits : ALIGN n + HEADER_SIZE ≤ old.size
          · rw [mem_resize_fits mem hn hat hof hfits]
            exact hInv
          · cases hall : mem_alloc p n with
            | mk r p1 =>
              cases r with
              | none =>
                rw [mem_resize_grow_fail mem hn hat hof hfits hall]
                have := alloc_pres (n := n) hInv
                rw [hall] at this
                exact this
              | some nb =>
                rw [mem_resize_grow_ok mem hn hat hof hfits hall]
                have h1 := alloc_pres (n := n) hInv
                rw [hall] at h1
                exact free_pres h1

/-! Every reachable pool state satisfies the invariant. -/

theorem reachable_Inv {p : Pool} (h : Reachable p) : Inv p := by
  induction h with
  | init n => exact Inv_init n
  | alloc q n _ ih => exact alloc_pres ih
  | free q ptr _ ih => exact free_pres ih
  | resize q mem ptr n _ ih => exact resize_pres ih

/-! Decomposition of a successful header lookup. -/

theorem find?_decomp {pred : Block → Bool} {l : List Block} {b : Block}
    (h : l.find? pred = some b) :
    ∃ pre post, l = pre ++ b :: post ∧ (∀ c ∈ pre, pred c = false) ∧
      pred b = true := by
  induction l with
  | nil => cases h
  | cons c cs ih =>
    cases hc : pred c with
    | true =>
      rw [List.find?_cons_of_pos _ hc] at h
      simp only [Option.some.injEq] at h
      subst h
      exact ⟨[], cs, rfl, (by intro x hx; cases hx), hc⟩
    | false =>
      rw [List.find?_cons_of_neg _ (by simp [hc])] at h
      obtain ⟨pre, post, rfl, hpre, hb⟩ := ih h
      refine ⟨c :: pre, post, rfl, ?_, hb⟩
      intro x hx
      rcases List.mem_cons.mp hx with rfl | hx
      · exact hc
      · exact hpre x hx

theorem blockAt_decomp {p : Pool} {x : Nat} {b : Block} (hInv : Inv p)
    (h : blockAt p.blocks x = some b) :
    ∃ pre post, p.blocks = pre ++ b :: post ∧ b.addr = x ∧
      (∀ c ∈ pre, c.addr ≠ x) ∧ (∀ c ∈ post, c.addr ≠ x) := by
  obtain ⟨pre, post, heq, hpre, hb⟩ := find?_decomp h
  have hbx : b.addr = x := by simpa using hb
  have hcontig := hInv.contig
  rw [heq] at hcontig
  obtain ⟨_, _, _, hlt_pre, hlt_post⟩ := blocksContig_mid hcontig
  refine ⟨pre, post, heq, hbx, ?_, ?_⟩
  · intro c hc
    simpa using hpre c hc
  · intro c hc
    have := hlt_post c hc
    omega

theorem sumFree_append (l1 l2 : List Block) :
    sumSizes ((l1 ++ l2).filter fun b => b.is_free)
      = sumSizes (l1.filter fun b => b.is_free)
        + sumSizes (l2.filter fun b => b.is_free) := by
  rw [List.filter_append, sumSizes_append]

theorem coalesceBlocks_sumFree (l : List Block) :
    sumSizes ((coalesceBlocks l).filter fun b => b.is_free)
      = sumSizes (l.filter fun b => b.is_free) := by
  cases l with
  | nil => rfl
  | cons b bs => exact coalesceInto_sumFree b bs

/-! First-fit contract of mem_alloc over a pool state. -/

theorem alloc_first_fit (p : Pool) (n : Nat) (hInv : Inv p) :
    allocFirstFitSpec p n := by
  constructor
  · rw [mem_alloc_spec p n hInv]
    cases hre : allocSimple p.blocks (requiredOf n) with
    | none =>
      simp only [true_and]
      constructor
      · intro _
        exact allocSimple_none_iff.mp hre
      · intro _
        trivial
    | some r =>
      obtain ⟨u2, bs2⟩ := r
      simp only []
      constructor
      · intro h
        cases h.1
      · intro h
        have : allocSimple p.blocks (requiredOf n) = none := allocSimple_none_iff.mpr h
        rw [hre] at this
        cases this
  · intro u p2 h
    rw [mem_alloc_spec p n hInv] at h
    cases hre : allocSimple p.blocks (requiredOf n) with
    | none =>
      rw [hre] at h
      simp at h
    | some r =>
      obtain ⟨u2, bs2⟩ := r
      rw [hre] at h
      simp only [Prod.mk.injEq, Option.some.injEq] at h
      obtain ⟨huu, hp2⟩ := h
      subst huu
      subst hp2
      obtain ⟨pre, b, post, heq, hpre, hbf, hfit, hu2, hbs2⟩ := allocSimple_some hre
      subst hu2
      have hflist : p.freeList = freeAddrs pre ++ b.addr :: freeAddrs post := by
        rw [hInv.flist, heq, freeAddrs_append, freeAddrs_cons, if_pos hbf]
      refine ⟨pre, b, post, heq, hpre, hbf, hfit, rfl, hflist, rfl, ?_⟩
      by_cases hsplit : HEADER_SIZE + ALIGNMENT ≤ b.size - requiredOf n
      · rw [if_pos hsplit]
        rw [if_pos hsplit] at hbs2
        simp only [List.append_assoc, List.cons_append, List.nil_append] at hbs2
        subst hbs2
        refine ⟨rfl, ?_⟩
        show freeAddrs (pre ++ Block.mk b.addr (requiredOf n) false ::
          Block.mk (b.addr + requiredOf n) (b.size - requiredOf n) true :: post)
          = freeAddrs pre ++ (b.addr + requiredOf n) :: freeAddrs post
        rw [freeAddrs_append, freeAddrs_cons, freeAddrs_cons]
        simp
      · rw [if_neg hsplit]
        rw [if_neg hsplit] at hbs2
        simp only [List.append_assoc, List.cons_append, List.nil_append] at hbs2
        subst hbs2
        refine ⟨rfl, ?_⟩
        show freeAddrs (pre ++ Block.mk b.addr b.size false :: post)
          = freeAddrs pre ++ freeAddrs post
        rw [freeAddrs_append, freeAddrs_cons]
        simp

theorem free_totalFree {p : Pool} {u : Nat} {b : Block} (hInv : Inv p)
    (hin : u < p.totalSize) (hat : blockAt p.blocks (u - HEADER_SIZE) = some b)
    (hbf : b.is_free = false) :
    totalFree (mem_free p (some u)).1 = totalFree p + b.size := by
  rw [mem_free_used (by omega) hat hbf]
  obtain ⟨pre, post, heq, hbx, hpre, hpost⟩ := blockAt_decomp hInv hat
  unfold totalFree rebuild_free_list_and_coalesce
  simp only []
  rw [coalesceBlocks_sumFree]
  have hmark : markFree p.blocks (u - HEADER_SIZE)
      = pre ++ Block.mk b.addr b.size true :: post := by
    rw [heq, ← hbx]
    exact markFree_middle pre post b
      (fun c hc => by rw [hbx]; exact hpre c hc)
      (fun c hc => by rw [hbx]; exact hpost c hc)
  rw [hmark, heq]
  rw [sumFree_append, sumFree_append, List.filter_cons, List.filter_cons]
  rw [if_pos (show (Block.mk b.addr b.size true).is_free = true from rfl)]
  rw [if_neg (by simp [hbf])]
  rw [sumSizes_cons]
  simp only []
  omega

/-! Claim theorems. -/

/-- C1: mem_alloc treats a zero request as one byte, computes
required = ALIGN(ALIGN(n) + HEADER_SIZE) with 8-byte alignment, scans the
free list in free-list order for the first free block of at least required
bytes, splits the chosen block when the leftover is at least
HEADER_SIZE + ALIGNMENT (shrinking it to required and splicing the
remainder into the free list in its place) and otherwise consumes it whole
(removing it from the free list), returns the payload offset just past the
header, and returns NULL exactly when no free block fits. Stated for every
pool satisfying the reachable-state invariant. -/
theorem C1_mem_alloc_first_fit (p : Pool) (n : Nat) (hInv : Inv p) :
    allocFirstFitSpec p n := alloc_first_fit p n hInv

theorem C1_mem_alloc_first_fit_witness :
    Inv (mem_init 1024) ∧ allocFirstFitSpec (mem_init 1024) 64 :=
  ⟨Inv_init 1024, C1_mem_alloc_first_fit (mem_init 1024) 64 (Inv_init 1024)⟩

/-- C2: in every pool state reachable through mem_init, mem_alloc, mem_free
and mem_resize, the free list references only blocks marked free, and the
total bytes of free blocks plus the total bytes of used blocks equal the
pool capacity; every allocator operation preserves this because it
preserves the pool invariant. -/
theorem C2_free_list_and_byte_conservation (p : Pool) (h : Reachable p) :
    (∀ a ∈ p.freeList, ∃ b ∈ p.blocks, b.addr = a ∧ b.is_free = true) ∧
    totalFree p + totalUsed p = p.totalSize := by
  have hInv := reachable_Inv h
  constructor
  · intro a ha
    rw [hInv.flist] at ha
    unfold freeAddrs at ha
    obtain ⟨b, hb, rfl⟩ := List.mem_map.mp ha
    have hb2 := List.mem_filter.mp hb
    exact ⟨b, hb2.1, rfl, by simpa using hb2.2⟩
  · unfold totalFree totalUsed
    rw [sumSizes_partition]
    exact hInv.total

theorem C2_free_list_and_byte_conservation_witness :
    Reachable (mem_init 1024) ∧
      ((∀ a ∈ (mem_init 1024).freeList,
          ∃ b ∈ (mem_init 1024).blocks, b.addr = a ∧ b.is_free = true) ∧
        totalFree (mem_init 1024) + totalUsed (mem_init 1024)
          = (mem_init 1024).totalSize) :=
  ⟨Reachable.init 1024,
    C2_free_list_and_byte_conservation (mem_init 1024) (Reachable.init 1024)⟩

/-- C3: mem_free ignores a NULL pointer; for a pointer outside the pool
range it reports InvalidPointer and leaves the pool unchanged; for a
pointer whose block is already marked free it reports DoubleFree and
leaves the pool unchanged (so freeing the same pointer twice is a no-op
the second time); otherwise it marks the block free, runs the full
coalesce pass, and the freed bytes join the free total. -/
theorem C3_mem_free_error_handling :
    (∀ p : Pool, mem_free p none = (p, none)) ∧
    (∀ (p : Pool) (u : Nat), p.totalSize ≤ u →
      mem_free p (some u) = (p, some Diag.invalidPointer)) ∧
    (∀ (p : Pool) (u : Nat) (b : Block), HEADER_SIZE ≤ u → u < p.totalSize →
      blockAt p.blocks (u - HEADER_SIZE) = some b → b.is_free = true →
      mem_free p (some u) = (p, some Diag.doubleFree)) ∧
    (∀ (p : Pool) (u : Nat) (b : Block), Inv p → HEADER_SIZE ≤ u →
      u < p.totalSize →
      blockAt p.blocks (u - HEADER_SIZE) = some b → b.is_free = false →
      (mem_free p (some u)).2 = none ∧
      (mem_free p (some u)).1 =
        rebuild_free_list_and_coalesce
          { totalSize := p.totalSize
            blocks := markFree p.blocks (u - HEADER_SIZE)
            freeList := p.freeList } ∧
      totalFree (mem_free p (some u)).1 = totalFree p + b.size) := by
  refine ⟨fun p => mem_free_none p, fun p u h => mem_free_out h, ?_, ?_⟩
  · intro p u b hpay hin hat hbf
    exact mem_free_double (by omega) hat hbf
  · intro p u b hInv hpay hin hat hbf
    refine ⟨?_, ?_, free_totalFree hInv hin hat hbf⟩
    · rw [mem_free_used (by omega) hat hbf]
    · rw [mem_free_used (by omega) hat hbf]

theorem C3_mem_free_error_handling_witness :
    (HEADER_SIZE ≤ 24 ∧ 24 < (mem_init 1024).totalSize ∧
      blockAt (mem_init 1024).blocks (24 - HEADER_SIZE)
        = some (Block.mk 0 1024 true)) ∧
    mem_free (mem_init 1024) (some 24) = (mem_init 1024, some Diag.doubleFree) :=
  ⟨⟨by decide, by decide, by decide⟩,
    C3_mem_free_error_handling.2.2.1 (mem_init 1024) 24 (Block.mk 0 1024 true)
      (by decide) (by decide) (by decide) rfl⟩

theorem alloc_none_pool {p p1 : Pool} {n : Nat} (h : mem_alloc p n = (none, p1)) :
    p1 = p := by
  rw [mem_alloc_eq] at h
  cases hl : allocLoop p.blocks (requiredOf n) p.freeList with
  | none =>
    rw [hl] at h
    simp only [Prod.mk.injEq] at h
    exact h.2.symm
  | some r =>
    obtain ⟨a, bs, fl⟩ := r
    rw [hl] at h
    simp at h

/-- C4 counterexample: start from init(1024); allocate three 8-byte blocks
(payloads 24, 56, 88) and free the first, leaving a 32-byte free block at
address 0 and the tail free block at address 96. With n = 100 and m = 8,
alloc(100) is served at payload 120 (block [96, 224)); free(120) restores
the pool; but the following alloc(8) returns payload 24, carved from the
32-byte block at address 0 — not from the freed region [96, 224). So the
claim that alloc(m) is satisfied from the freed region is false. -/
theorem C4_counterexample :
    (mem_alloc (mem_free (mem_alloc (mem_alloc (mem_alloc
        (mem_init 1024) 8).2 8).2 8).2 (some 24)).1 100).1 = some 120 ∧
    (mem_free (mem_alloc (mem_free (mem_alloc (mem_alloc (mem_alloc
        (mem_init 1024) 8).2 8).2 8).2 (some 24)).1 100).2 (some 120)).1
      = (mem_free (mem_alloc (mem_alloc (mem_alloc
        (mem_init 1024) 8).2 8).2 8).2 (some 24)).1 ∧
    (mem_alloc (mem_free (mem_alloc (mem_free (mem_alloc (mem_alloc (mem_alloc
        (mem_init 1024) 8).2 8).2 8).2 (some 24)).1 100).2 (some 120)).1 8).1
      = some 24 ∧
    ¬(96 + HEADER_SIZE ≤ 24 ∧ 24 < 96 + 128) := by
  refine ⟨by decide, by decide, by decide, by decide⟩

/-- C4 amended: for every pool satisfying the reachable-state invariant and
sizes m ≤ n, if p = alloc(n) succeeds then free(p) restores the pool
exactly — in particular total free bytes after the free equal total free
bytes before the alloc — and the freed region is again a free block of at
least required(m) bytes, so alloc(m) is satisfiable from the freed region
and succeeds; first-fit may, however, serve alloc(m) from an earlier free
block. In the concrete scenario init(1024), p1 = alloc(64) = 24,
p2 = alloc(64) = 112, free(p1), the pointer p3 = alloc(32) equals 24 and
falls within [p1, p1 + 64). -/
theorem C4_round_trip_amended :
    (∀ (s : Pool) (n m u : Nat) (s1 : Pool), Inv s → m ≤ n →
      mem_alloc s n = (some u, s1) →
      (mem_free s1 (some u)).1 = s ∧
      totalFree (mem_free s1 (some u)).1 = totalFree s ∧
      (∃ b ∈ (mem_free s1 (some u)).1.blocks, b.is_free = true ∧
        b.addr + HEADER_SIZE = u ∧ requiredOf m ≤ b.size) ∧
      (mem_alloc (mem_free s1 (some u)).1 m).1 ≠ none) ∧
    ((mem_alloc (mem_init 1024) 64).1 = some 24 ∧
      (mem_alloc (mem_alloc (mem_init 1024) 64).2 64).1 = some 112 ∧
      (mem_alloc (mem_free (mem_alloc (mem_alloc
          (mem_init 1024) 64).2 64).2 (some 24)).1 32).1 = some 24 ∧
      24 ≤ 24 ∧ 24 < 24 + 64) := by
  constructor
  · intro s n m u s1 hInv hmn hall
    have hrt := free_alloc_roundtrip hInv hall
    have hrt1 : (mem_free s1 (some u)).1 = s := by rw [hrt]
    obtain ⟨b, hbmem, hbf, hbu, hbfit⟩ :
        ∃ b ∈ s.blocks, b.is_free = true ∧ b.addr + HEADER_SIZE = u ∧
          requiredOf m ≤ b.size := by
      rw [mem_alloc_spec s n hInv] at hall
      cases hre : allocSimple s.blocks (requiredOf n) with
      | none =>
        rw [hre] at hall
        simp at hall
      | some r =>
        obtain ⟨u2, bs2⟩ := r
        rw [hre] at hall
        simp only [Prod.mk.injEq, Option.some.injEq] at hall
        obtain ⟨huu, hpp⟩ := hall
        obtain ⟨pre, b, post, heq, hpre2, hbf, hfit, hu2, hbs2⟩ :=
          allocSimple_some hre
        exact ⟨b, by rw [heq]; simp, hbf, by omega,
          le_trans (requiredOf_mono hmn) hfit⟩
    refine ⟨hrt1, by rw [hrt1], ⟨b, by rw [hrt1]; exact hbmem, hbf, hbu, hbfit⟩, ?_⟩
    rw [hrt1]
    intro hnone
    rw [mem_alloc_spec s m hInv] at hnone
    cases hre : allocSimple s.blocks (requiredOf m) with
    | some r =>
      obtain ⟨u3, bs3⟩ := r
      rw [hre] at hnone
      simp at hnone
    | none =>
      have := allocSimple_none_iff.mp hre b hbmem hbf
      omega
  · refine ⟨by decide, by decide, by decide, by decide, by decide⟩

theorem C4_round_trip_amended_witness :
    (Inv (mem_init 1024) ∧ 8 ≤ 64 ∧
      mem_alloc (mem_init 1024) 64 = (some 24, (mem_alloc (mem_init 1024) 64).2)) ∧
    (mem_free (mem_alloc (mem_init 1024) 64).2 (some 24)).1 = mem_init 1024 :=
  ⟨⟨Inv_init 1024, by decide, by decide⟩,
    (C4_round_trip_amended.1 (mem_init 1024) 64 8 24
      (mem_alloc (mem_init 1024) 64).2 (Inv_init 1024) (by decide) (by decide)).1⟩

/-- C5: mem_resize(NULL, n) behaves as alloc(n); mem_resize(ptr, 0) behaves
as free(ptr) and returns NULL; when the current block total size already
accommodates ALIGN(n) + HEADER_SIZE the same pointer is returned and the
pool and contents are untouched; otherwise a new block is allocated, exactly
min(old payload size, n) bytes are copied verbatim from the old payload, the
old block is freed and the new pointer returned; if the new allocation
fails, NULL is returned and the old block remains in place, allocated. -/
theorem C5_mem_resize_contract :
    (∀ (p : Pool) (mem : Nat → Nat) (n : Nat),
      (mem_resize p mem none n).ptr = (mem_alloc p n).1 ∧
      (mem_resize p mem none n).pool = (mem_alloc p n).2 ∧
      (∀ x, (mem_resize p mem none n).mem x = mem x) ∧
      (mem_resize p mem none n).diag = none) ∧
    (∀ (p : Pool) (mem : Nat → Nat) (u : Nat),
      (mem_resize p mem (some u) 0).ptr = none ∧
      (mem_resize p mem (some u) 0).pool = (mem_free p (some u)).1 ∧
      (∀ x, (mem_resize p mem (some u) 0).mem x = mem x)) ∧
    (∀ (p : Pool) (mem : Nat → Nat) (u n : Nat) (old : Block), 0 < n →
      HEADER_SIZE ≤ u →
      blockAt p.blocks (u - HEADER_SIZE) = some old → old.is_free = false →
      ALIGN n + HEADER_SIZE ≤ old.size →
      (mem_resize p mem (some u) n).ptr = some u ∧
      (mem_resize p mem (some u) n).pool = p ∧
      (∀ x, (mem_resize p mem (some u) n).mem x = mem x)) ∧
    (∀ (p p1 : Pool) (mem : Nat → Nat) (u n nb : Nat) (old : Block), 0 < n →
      HEADER_SIZE ≤ u →
      blockAt p.blocks (u - HEADER_SIZE) = some old → old.is_free = false →
      HEADER_SIZE ≤ old.size → ¬(ALIGN n + HEADER_SIZE ≤ old.size) →
      mem_alloc p n = (some nb, p1) →
      (mem_resize p mem (some u) n).ptr = some nb ∧
      (mem_resize p mem (some u) n).pool = (mem_free p1 (some u)).1 ∧
      (∀ i, i < min (old.size - HEADER_SIZE) n →
        (mem_resize p mem (some u) n).mem (nb + i) = mem (u + i)) ∧
      (∀ x, x < nb ∨ nb + min (old.size - HEADER_SIZE) n ≤ x →
        (mem_resize p mem (some u) n).mem x = mem x)) ∧
    (∀ (p p1 : Pool) (mem : Nat → Nat) (u n : Nat) (old : Block), 0 < n →
      HEADER_SIZE ≤ u →
      blockAt p.blocks (u - HEADER_SIZE) = some old → old.is_free = false →
      ¬(ALIGN n + HEADER_SIZE ≤ old.size) →
      mem_alloc p n = (none, p1) →
      (mem_resize p mem (some u) n).ptr = none ∧
      (mem_resize p mem (some u) n).pool = p ∧
      blockAt (mem_resize p mem (some u) n).pool.blocks (u - HEADER_SIZE)
        = some old) := by
  refine ⟨?_, ?_, ?_, ?_, ?_⟩
  · intro p mem n
    rw [mem_resize_null]
    exact ⟨rfl, rfl, fun x => rfl, rfl⟩
  · intro p mem u
    rw [mem_resize_zero]
    exact ⟨rfl, rfl, fun x => rfl⟩
  · intro p mem u n old hn hpay hat hof hfits
    rw [mem_resize_fits mem (by omega) hat hof hfits]
    exact ⟨rfl, rfl, fun x => rfl⟩
  · intro p p1 mem u n nb old hn hpay hat hof hsz hfits hall
    rw [mem_resize_grow_ok mem (by omega) hat hof hfits hall]
    have hlen : (if (if HEADER_SIZE ≤ old.size then old.size - HEADER_SIZE else 0) < n
        then (if HEADER_SIZE ≤ old.size then old.size - HEADER_SIZE else 0)
        else n) = min (old.size - HEADER_SIZE) n := by
      rw [if_pos hsz]
      rcases Nat.lt_or_ge (old.size - HEADER_SIZE) n with h | h
      · rw [if_pos h]
        omega
      · rw [if_neg (by omega)]
        omega
    rw [hlen]
    refine ⟨rfl, rfl, ?_, ?_⟩
    · intro i hi
      show memcpyF mem nb u (min (old.size - HEADER_SIZE) n) (nb + i) = mem (u + i)
      unfold memcpyF
      rw [if_pos ⟨by omega, by omega⟩]
      congr 1
      omega
    · intro x hx
      show memcpyF mem nb u (min (old.size - HEADER_SIZE) n) x = mem x
      unfold memcpyF
      rw [if_neg (by omega)]
  · intro p p1 mem u n old hn hpay hat hof hfits hall
    have hp1 : p1 = p := alloc_none_pool hall
    subst hp1
    rw [mem_resize_grow_fail mem (by omega) hat hof hfits hall]
    exact ⟨rfl, rfl, hat⟩

theorem C5_mem_resize_contract_witness :
    (0 < 40 ∧ HEADER_SIZE ≤ 24 ∧
      blockAt ((mem_alloc (mem_init 1024) 64).2).blocks (24 - HEADER_SIZE)
        = some (Block.mk 0 88 false) ∧
      ALIGN 40 + HEADER_SIZE ≤ 88) ∧
    (mem_resize ((mem_alloc (mem_init 1024) 64).2) (fun x => x)
        (some 24) 40).ptr = some 24 :=
  ⟨⟨by decide, by decide, by decide, by decide⟩,
    (C5_mem_resize_contract.2.2.1 ((mem_alloc (mem_init 1024) 64).2)
      (fun x => x) 24 40 (Block.mk 0 88 false)
      (by decide) (by decide) (by decide) rfl (by decide)).1⟩

/-- C10: mem_resize with a positive size on the payload pointer of a block
already marked free returns NULL, emits the freed-block warning, and leaves
the pool and its contents unchanged. -/
theorem C10_resize_freed_block (p : Pool) (mem : Nat → Nat) (u n : Nat)
    (b : Block) (hn : 0 < n) (_hpay : HEADER_SIZE ≤ u)
    (hat : blockAt p.blocks (u - HEADER_SIZE) = some b)
    (hbf : b.is_free = true) :
    (mem_resize p mem (some u) n).ptr = none ∧
    (mem_resize p mem (some u) n).pool = p ∧
    (∀ x, (mem_resize p mem (some u) n).mem x = mem x) ∧
    (mem_resize p mem (some u) n).diag = some Diag.resizeFreed := by
  rw [mem_resize_freed mem (by omega) hat hbf]
  exact ⟨rfl, rfl, fun x => rfl, rfl⟩

theorem C10_resize_freed_block_witness :
    (0 < 8 ∧ HEADER_SIZE ≤ 24 ∧
      blockAt (mem_init 1024).blocks (24 - HEADER_SIZE)
        = some (Block.mk 0 1024 true)) ∧
    ((mem_resize (mem_init 1024) (fun x => x) (some 24) 8).ptr = none ∧
      (mem_resize (mem_init 1024) (fun x => x) (some 24) 8).pool
        = mem_init 1024 ∧
      (∀ x, (mem_resize (mem_init 1024) (fun x => x) (some 24) 8).mem x = x) ∧
      (mem_resize (mem_init 1024) (fun x => x) (some 24) 8).diag
        = some Diag.resizeFreed) :=
  ⟨⟨by decide, by decide, by decide⟩,
    C10_resize_freed_block (mem_init 1024) (fun x => x) 24 8
      (Block.mk 0 1024 true) (by decide) (by decide) (by decide) rfl⟩

/-! Linked-list lemmas and claims. -/

theorem spliceBefore_none {l : List LNode} {tid : Nat} {nn : LNode}
    (h : tid ∉ l.map LNode.id) : spliceBefore l tid nn = none := by
  induction l with
  | nil => rfl
  | cons x xs ih =>
    cases xs with
    | nil => rfl
    | cons y ys =>
      have hy : y.id ≠ tid := by
        intro he
        exact h (by simp [he])
      have h2 : tid ∉ (y :: ys).map LNode.id :=
        fun hm => h (List.mem_cons_of_mem _ hm)
      show (if y.id = tid then some (x :: nn :: y :: ys)
        else
          match spliceBefore (y :: ys) tid nn with
          | none => none
          | some l2 => some (x :: l2)) = none
      rw [if_neg hy, ih h2]

/-- C7: for every pool satisfying the reachable-state invariant and every
list, when next_node is non-null but not reachable from the head,
list_insert_before leaves the list unchanged and hands the pre-allocated
node back to the pool, which is restored exactly; in particular the total
free-byte count after the call equals its value before. -/
theorem C7_insert_before_absent (p : Pool) (l : List LNode) (tid v : Nat)
    (hInv : Inv p) (habs : tid ∉ l.map LNode.id) :
    list_insert_before p l (some tid) v = (p, l) ∧
    totalFree (list_insert_before p l (some tid) v).1 = totalFree p := by
  have hmain : list_insert_before p l (some tid) v = (p, l) := by
    unfold list_insert_before
    simp only []
    cases hall : mem_alloc p NODE_SIZE with
    | mk r p1 =>
      cases r with
      | none =>
        simp only []
        rw [alloc_none_pool hall]
      | some ptr =>
        simp only []
        cases l with
        | nil =>
          simp only []
          rw [free_alloc_roundtrip hInv hall]
        | cons nd rest =>
          simp only []
          have hne : nd.id ≠ tid := by
            intro he
            exact habs (by simp [he])
          rw [if_neg hne]
          rw [spliceBefore_none habs]
          simp only []
          rw [free_alloc_roundtrip hInv hall]
  exact ⟨hmain, by rw [hmain]⟩

theorem C7_insert_before_absent_witness :
    (Inv (mem_init 1024) ∧ (3 : Nat) ∉ ([] : List LNode).map LNode.id) ∧
    list_insert_before (mem_init 1024) [] (some 3) 7 = (mem_init 1024, []) :=
  ⟨⟨Inv_init 1024, by simp⟩,
    (C7_insert_before_absent (mem_init 1024) [] 3 7 (Inv_init 1024) (by simp)).1⟩

theorem list_search_eq_none {l : List Nat} {v : Nat} (h : v ∉ l) :
    list_search l v = none := by
  induction l with
  | nil => rfl
  | cons x xs ih =>
    rw [list_search]
    have hx : x ≠ v := by
      intro he
      exact h (by simp [he])
    rw [if_neg hx]
    exact ih fun hm => h (List.mem_cons_of_mem _ hm)

/-- C8 counterexample: after inserting the value 5 twice and deleting it
once, search still finds a node with value 5, because list_delete removes
only the first matching node. -/
theorem C8_counterexample :
    list_search (list_delete (list_insert (list_insert [] 5) 5) 5) 5 ≠ none := by
  decide

/-- C8 amended: insert(v) followed by search(v) always returns a node whose
data equals v; delete(v) removes only the first node with value v, so
search(v) after delete(v) returns null whenever the list held at most one
occurrence of v — in particular when v was inserted exactly once. -/
theorem C8_insert_search_delete_amended :
    (∀ (l : List Nat) (v : Nat), list_search (list_insert l v) v = some v) ∧
    (∀ (l : List Nat) (v : Nat), l.count v ≤ 1 →
      list_search (list_delete l v) v = none) := by
  constructor
  · intro l v
    induction l with
    | nil => simp [list_insert, list_search]
    | cons x xs ih =>
      show list_search ((x :: xs) ++ [v]) v = some v
      rw [List.cons_append, list_search]
      by_cases hx : x = v
      · rw [if_pos hx, hx]
      · rw [if_neg hx]
        exact ih
  · intro l v h
    induction l with
    | nil => rfl
    | cons x xs ih =>
      rw [list_delete]
      by_cases hx : x = v
      · rw [if_pos hx]
        subst hx
        have hc : xs.count x = 0 := by
          rw [List.count_cons_self] at h
          omega
        exact list_search_eq_none (by
          intro hm
          have := List.count_pos_iff.mpr hm
          omega)
      · rw [if_neg hx, list_search, if_neg hx]
        apply ih
        rw [List.count_cons_of_ne (fun he => hx he.symm)] at h
        exact h

theorem C8_insert_search_delete_amended_witness :
    ([5, 7].count 5 ≤ 1) ∧
    list_search (list_delete [5, 7] 5) 5 = none :=
  ⟨by decide, C8_insert_search_delete_amended.2 [5, 7] 5 (by decide)⟩

/-- C6 counterexample: inserting into the two-node list [1, 2], the lock
trace of list_insert contains no per-node lock acquisition at all, so the
append cannot be using hand-over-hand lock coupling, and the head lock is
not released before the traversal. -/
theorem C6_counterexample :
    usesLockCoupling (list_insert_events [1, 2]) = false := by decide

/-- C6 amended: list_insert performs the entire append under the global
head mutex: for every list its lock trace is exactly acquire head_mutex,
walk to the tail with no per-node lock operations, link the node, release
head_mutex. -/
theorem C6_insert_locking_amended (l : List Nat) :
    list_insert_events l = [LockEvent.acquireHead, LockEvent.releaseHead] := by
  have hw : insertWalk l = [] := by
    induction l with
    | nil => rfl
    | cons x xs ih => exact ih
  unfold list_insert_events
  by_cases hl : l = []
  · rw [if_pos hl]
  · rw [if_neg hl, hw]
    rfl

theorem countLoopAux_reaches {next : Nat → Option Nat} {h : Option Nat}
    {c : List Nat} (hr : Reaches next h c) :
    ∀ fuel count, c.length ≤ fuel →
      countLoopAux next fuel h count = (count + c.length, false) := by
  induction hr with
  | nil =>
    intro fuel count _
    cases fuel <;> rfl
  | cons v c2 hr2 ih =>
    intro fuel count hlen
    cases fuel with
    | zero => simp at hlen
    | succ rem =>
      rw [countLoopAux]
      rw [ih rem (count + 1) (by simpa using hlen)]
      rw [List.length_cons]
      rw [Prod.mk.injEq]
      exact ⟨by omega, rfl⟩

theorem countLoopAux_cycle :
    ∀ (fuel count : Nat),
      countLoopAux (fun _ => some 0) fuel (some 0) count
        = (count + fuel + 1, true) := by
  intro fuel
  induction fuel with
  | zero =>
    intro count
    rfl
  | succ rem ih =>
    intro count
    rw [countLoopAux, ih (count + 1), Prod.mk.injEq]
    exact ⟨by omega, rfl⟩

/-- C9: counting the nodes of an acyclic chain of N nodes, with N up to the
one-million safety ceiling, returns exactly N and no cycle diagnostic; on a
cyclic chain (here a one-node self loop) the traversal stops once the
safety counter passes the ceiling, reports the cycle diagnostic, and
returns the partial count accumulated so far instead of looping forever. -/
theorem C9_count_nodes :
    (∀ (next : Nat → Option Nat) (h : Option Nat) (c : List Nat),
      Reaches next h c → c.length ≤ CYCLE_LIMIT →
      list_count_nodes next h = (c.length, false)) ∧
    list_count_nodes (fun _ => some 0) (some 0) = (CYCLE_LIMIT + 1, true) := by
  constructor
  · intro next h c hr hlen
    unfold list_count_nodes
    rw [countLoopAux_reaches hr CYCLE_LIMIT 0 hlen]
    rw [Nat.zero_add]
  · unfold list_count_nodes
    rw [countLoopAux_cycle CYCLE_LIMIT 0, Nat.zero_add]

theorem C9_count_nodes_witness :
    Reaches (fun i => if i = 1 then some 2 else none) (some 1) [1, 2] ∧
    list_count_nodes (fun i => if i = 1 then some 2 else none) (some 1)
      = (2, false) := by
  have hr : Reaches (fun i => if i = 1 then some 2 else none) (some 1) [1, 2] :=
    Reaches.cons 1 [2] (Reaches.cons 2 [] Reaches.nil)
  exact ⟨hr, C9_count_nodes.1 _ _ [1, 2] hr (by decide)⟩

end DV1580
